import Mathlib

/-!
Shallow embedding of `scripts/check_utf8_budget.py`, a per-line UTF-8
byte-budget checker, together with theorems settling the spec's claims.

Python strings are modelled as Lean `String` (sequences of Unicode scalar
values); the string primitives the script uses (`rstrip("\n")`, `strip()`,
`startswith`, `lower()`, `split(",")`, slicing, `len(s.encode("utf-8"))`)
are re-implemented over `List Char` so that every definition evaluates by
kernel reduction.  `str.strip()` is modelled over the ASCII whitespace
characters; no claim distinguishes the wider Unicode whitespace classes.
-/

namespace CheckUtf8Budget

/-- ASCII whitespace as stripped by Python `str.strip()`. -/
def isPySpace (c : Char) : Bool :=
  c = ' ' || c = '\t' || c = '\n' || c = '\r' || c = '\x0b' || c = '\x0c'

/-- Drop the longest suffix of characters satisfying `p` (structural form of
Python `str.rstrip`). -/
def dropTrailing (p : Char → Bool) : List Char → List Char
  | [] => []
  | c :: cs =>
    let r := dropTrailing p cs
    if r = [] then (if p c then [] else [c]) else c :: r

/-- Python `line.rstrip("\n")` on the character list: remove every trailing
newline character. -/
def rstripNewlinesL (l : List Char) : List Char :=
  dropTrailing (fun c => decide (c = '\n')) l

/-- Python `line.rstrip("\n")`. -/
def rstripNewlines (s : String) : String :=
  String.mk (rstripNewlinesL s.data)

/-- Python `str.strip()` on the character list: drop leading and trailing
whitespace. -/
def pyStripL (l : List Char) : List Char :=
  dropTrailing isPySpace (l.dropWhile isPySpace)

/-- Python `str.strip()`. -/
def pyStrip (s : String) : String :=
  String.mk (pyStripL s.data)

/-- List-prefix test (used for Python `str.startswith`). -/
def isPrefixList : List Char → List Char → Bool
  | [], _ => true
  | _ :: _, [] => false
  | a :: as, b :: bs => decide (a = b) && isPrefixList as bs

/-- Python `s.startswith (pfx)`. -/
def pyStartsWith (s pfx : String) : Bool :=
  isPrefixList pfx.data s.data

/-- Python `str.lower()` (ASCII case mapping; the script only compares file
extensions, which are ASCII). -/
def pyLower (s : String) : String :=
  String.mk (s.data.map Char.toLower)

/-- Python `s.split (sep)` for a one-character separator: `"".split(",")`
is `[""]` and separators delimit possibly-empty fields. -/
def splitOnChar (sep : Char) : List Char → List (List Char)
  | [] => [[]]
  | c :: cs =>
    match splitOnChar sep cs with
    | [] => [[c]]
    | h :: t => if c = sep then [] :: h :: t else (c :: h) :: t

/-- Python slicing `s[:n]` (by code points). -/
def pySlice (n : Nat) (s : String) : String :=
  String.mk (s.data.take n)

/-- Python `len(s.encode("utf-8"))`: the UTF-8 encoded byte length. -/
def utf8Len (s : String) : Nat :=
  s.utf8ByteSize

/-- The `path` field of a `Failure`: Python's `Path | str`.  `run` passes a
`Path` for file targets and the plain string `"stdin"` for the stream. -/
inductive Src
  | fsPath (p : String)
  | str (s : String)
deriving DecidableEq

/-- The `Failure` dataclass: one budget violation. -/
structure Failure where
  path : Src
  line_no : Nat
  byte_len : Nat
  limit : Int
  preview : String
deriving DecidableEq

/-- Formatting, `Failure.format`: `f"{location} exceeds limit ({byte_len} > {limit} bytes): {preview}"`,
where `location` is `f"{path}:{line_no}"` for a `Path` and the literal
`"stdin"` otherwise. -/
def Failure.format (f : Failure) : String :=
  let location :=
    match f.path with
    | Src.fsPath p => p ++ ":" ++ toString f.line_no
    | Src.str _ => "stdin"
  location ++ " exceeds limit (" ++ toString f.byte_len ++ " > " ++
    toString f.limit ++ " bytes): " ++ f.preview

/-- Preview construction inside `check_stream`: the stripped line, truncated
to 57 characters plus `"..."` when longer than 60 characters. -/
def previewOf (stripped : String) : String :=
  if stripped.length > 60 then pySlice 57 stripped ++ "..." else stripped

/-- One iteration of the loop body of `check_stream` at 1-based index `idx`:
`none` when the line is skipped or within budget, `some` failure otherwise. -/
def processLine (limit : Int) (ignorePrefixes : List String) (source : Src)
    (idx : Nat) (raw_line : String) : Option Failure :=
  let line := rstripNewlines raw_line
  let stripped := pyStrip line
  if stripped = "" then none
  else if ignorePrefixes.any (fun pfx => pyStartsWith stripped pfx) then none
  else
    let byte_len := utf8Len line
    if (byte_len : Int) > limit then
      some ⟨source, idx, byte_len, limit, previewOf stripped⟩
    else none

/-- The loop of `check_stream`, carrying the 1-based `enumerate` counter. -/
def check_streamAux (limit : Int) (ignorePrefixes : List String) (source : Src) :
    Nat → List String → List Failure
  | _, [] => []
  | idx, l :: ls =>
    match processLine limit ignorePrefixes source idx l with
    | some f => f :: check_streamAux limit ignorePrefixes source (idx + 1) ls
    | none => check_streamAux limit ignorePrefixes source (idx + 1) ls

/-- Function `check_stream(text, limit, ignore_prefixes, source)`: the collected
failures, with `enumerate(text, start=1)` line numbering. -/
def check_stream (text : List String) (limit : Int) (ignorePrefixes : List String)
    (source : Src) : List Failure :=
  check_streamAux limit ignorePrefixes source 1 text

/-- Abstract POSIX filesystem: regular files (full path and the lines the
Python text iterator yields for them) and directories.  Paths are the full
path strings `str(Path(...))` would print. -/
structure FS where
  files : List (String × List String)
  dirs : List String
deriving DecidableEq

/-- Well-formedness: no path is listed twice or both as file and directory. -/
def FS.wf (fs : FS) : Prop :=
  (fs.files.map Prod.fst ++ fs.dirs).Nodup

/-- Python `Path(p).is_file()`. -/
def FS.isFile (fs : FS) (p : String) : Bool :=
  decide (p ∈ fs.files.map Prod.fst)

/-- Python `Path(p).is_dir()` (the script only relies on `exists` and `is_file`). -/
def FS.isDir (fs : FS) (p : String) : Bool :=
  decide (p ∈ fs.dirs)

/-- Python `Path(p).exists()`. -/
def FS.pathExists (fs : FS) (p : String) : Bool :=
  fs.isFile p || fs.isDir p

/-- The lines `Path(p).open("r").__iter__()` yields. -/
def FS.linesOf (fs : FS) (p : String) : List String :=
  match fs.files.find? (fun q => q.1 = p) with
  | some q => q.2
  | none => []

/-- Whether path `q` lies strictly below directory `d` (its full path has
`d ++ "/"` as a prefix); `Path(d).rglob("*")` yields exactly those paths. -/
def isUnder (d q : String) : Bool :=
  isPrefixList (d.data ++ ['/']) q.data

/-- String order on full paths: `sorted` over `Path` objects compares the
underlying path strings, i.e. code-point lexicographic order. -/
def strLeB : List Char → List Char → Bool
  | [], _ => true
  | _ :: _, [] => false
  | a :: as, b :: bs => if a = b then strLeB as bs else decide (a < b)

/-- Propositional form of `strLeB` on `String`, used as the sort relation. -/
def strLe (a b : String) : Prop :=
  strLeB a.data b.data = true

instance : DecidableRel strLe :=
  fun a b => instDecidableEqBool (strLeB a.data b.data) true

/-- Python `Path(p).name`: the final path component. -/
def basename (p : String) : String :=
  String.mk ((p.data.reverse.takeWhile (fun c => decide (c ≠ '/'))).reverse)

/-- Index of the last `'.'` in a character list (`name.rfind('.')`). -/
def lastDotIdx : List Char → Option Nat
  | [] => none
  | c :: cs =>
    match lastDotIdx cs with
    | some i => some (i + 1)
    | none => if c = '.' then some 0 else none

/-- Python `Path(p).suffix`: `name[i:]` for the last dot index `i` when
`0 < i < len(name) - 1`, else the empty string. -/
def suffixOf (p : String) : String :=
  let name := basename p
  match lastDotIdx name.data with
  | some i => if 0 < i ∧ i < name.length - 1 then String.mk (name.data.drop i) else ""
  | none => ""

/-- The extension filter of `iter_paths`:
`not normalized_exts or path.suffix.lower() in normalized_exts` with
`normalized_exts = {ext.lower() for ext in extensions}`. -/
def extPass (extensions : List String) (p : String) : Bool :=
  let normalized := extensions.map pyLower
  decide (normalized = []) || decide (pyLower (suffixOf p) ∈ normalized)

/-- Items `iter_paths` yields: the stream sentinel or a file path. -/
inductive Entry
  | stream
  | file (p : String)
deriving DecidableEq

/-- Python `sorted(Path(d).rglob("*"))`: every descendant of `d` (files and
directories), in sorted full-path order. -/
def FS.rglob (fs : FS) (d : String) : List String :=
  List.insertionSort strLe ((fs.files.map Prod.fst ++ fs.dirs).filter (fun q => isUnder d q))

/-- The directory branch of `iter_paths`: descendant regular files passing
the extension filter, in sorted order. -/
def dirScan (fs : FS) (extensions : List String) (d : String) : List Entry :=
  ((fs.rglob d).filter (fun q => fs.isFile q && extPass extensions q)).map Entry.file

/-- One loop iteration of `iter_paths` on entry `raw`: the entries it yields,
or the `FileNotFoundError(raw)` it raises. -/
def iterEntry (fs : FS) (extensions : List String) (raw : String) :
    Except String (List Entry) :=
  if raw = "-" then Except.ok [Entry.stream]
  else if fs.pathExists raw = false then Except.error raw
  else if fs.isFile raw = true then
    Except.ok (if extPass extensions raw then [Entry.file raw] else [])
  else Except.ok (dirScan fs extensions raw)

/-- Function `iter_paths(inputs, extensions)` as consumed by `run`'s loop: the prefix
of entries yielded before any `FileNotFoundError`, and the raised path if
one is raised (generators raise lazily, after the earlier yields). -/
def iterPaths (fs : FS) (inputs : List String) (extensions : List String) :
    List Entry × Option String :=
  match inputs with
  | [] => ([], none)
  | raw :: rest =>
    match iterEntry fs extensions raw with
    | Except.error e => ([], some e)
    | Except.ok es =>
      let r := iterPaths fs rest extensions
      (es ++ r.1, r.2)

/-- The comma-list parsing in `run`:
`[x.strip() for x in s.split(",") if x.strip()]`. -/
def parseCommaList (s : String) : List String :=
  (splitOnChar ',' s.data).filterMap (fun e =>
    let t := String.mk (pyStripL e)
    if t = "" then none else some t)

/-- Parsed command-line arguments (after `argparse`): positional paths,
`--limit`, the raw `--extensions` and `--ignore-prefix` strings, `--quiet`. -/
structure Args where
  paths : List String
  limit : Int
  extensionsArg : String
  ignoreArg : String
  quiet : Bool
deriving DecidableEq

/-- Observable outcome of a completed `run`: exit status, stdout lines,
stderr lines. -/
structure RunOutcome where
  exitCode : Nat
  stdout : List String
  stderrLines : List String
deriving DecidableEq

/-- Failures contributed by one enumerated entry: `check_stream` over stdin
(with `source="stdin"`) or over the file's lines (with `source=Path(entry)`). -/
def entryFailures (fs : FS) (stdin : List String) (limit : Int)
    (ignorePrefixes : List String) : Entry → List Failure
  | Entry.stream => check_stream stdin limit ignorePrefixes (Src.str "stdin")
  | Entry.file p => check_stream (fs.linesOf p) limit ignorePrefixes (Src.fsPath p)

/-- All failures `run` accumulates over the entries the enumerator yields. -/
def runFailures (fs : FS) (stdin : List String) (a : Args) : List Failure :=
  ((iterPaths fs a.paths (parseCommaList a.extensionsArg)).1.map
    (entryFailures fs stdin a.limit (parseCommaList a.ignoreArg))).flatten

/-- The reporting tail of `run`: the summary line (suppressed by `--quiet`),
the formatted failures on stderr, and the exit status. -/
def report (quiet : Bool) (checked : Nat) (failures : List Failure) : RunOutcome :=
  let summary := "Checked " ++ toString checked ++ " " ++
    (if checked = 1 then "file" else "files") ++ " with " ++
    toString failures.length ++ " violation(s)."
  let out := if quiet then ([] : List String) else [summary]
  if failures = [] then ⟨0, out, []⟩
  else ⟨1, out, failures.map Failure.format⟩

/-- Function `run(argv)` on the abstract filesystem and stdin: `Except.error raw` when
`iter_paths` raises `FileNotFoundError(raw)` mid-loop (the exception
propagates before any printing happens, since all output follows the loop),
`Except.ok` with the outcome otherwise. -/
def run (fs : FS) (stdin : List String) (a : Args) : Except String RunOutcome :=
  match (iterPaths fs a.paths (parseCommaList a.extensionsArg)).2 with
  | some bad => Except.error bad
  | none =>
    Except.ok (report a.quiet
      (iterPaths fs a.paths (parseCommaList a.extensionsArg)).1.length
      (runFailures fs stdin a))

/-- Modelled from the spec: "Strip exactly one trailing newline from each
line before measuring".  This is the spec's stripping rule, to be compared
with the code's `rstrip("\n")`; it removes one trailing `'\n'` at most. -/
def stripOneNewline (s : String) : String :=
  match s.data.reverse with
  | '\n' :: rest => String.mk rest.reverse
  | _ => s

/-- Characterisation of one `check_stream` loop iteration: a failure is
produced exactly when the stripped line is non-empty, no ignore prefix
matches, and the measured byte length exceeds the limit; the failure then
carries exactly the source, index, measured length, limit and preview. -/
theorem processLine_eq_some_iff {limit : Int} {igs : List String} {src : Src}
    {idx : Nat} {raw : String} {f : Failure} :
    processLine limit igs src idx raw = some f ↔
      (pyStrip (rstripNewlines raw) ≠ "" ∧
       (igs.any fun pfx => pyStartsWith (pyStrip (rstripNewlines raw)) pfx) = false ∧
       (utf8Len (rstripNewlines raw) : Int) > limit ∧
       f = ⟨src, idx, utf8Len (rstripNewlines raw), limit,
            previewOf (pyStrip (rstripNewlines raw))⟩) := by
  simp only [processLine]
  split_ifs with h1 h2 h3
  · simp [h1]
  · simp [h2]
  · constructor
    · intro h
      injection h with h
      exact ⟨h1, by simpa using h2, h3, h.symm⟩
    · rintro ⟨-, -, -, rfl⟩
      rfl
  · constructor
    · intro h
      exact absurd h (by simp)
    · rintro ⟨-, -, h3x, rfl⟩
      exact absurd h3x h3

/-- A produced failure records the loop index as its line number. -/
theorem processLine_line_no {limit : Int} {igs : List String} {src : Src}
    {idx : Nat} {raw : String} {f : Failure}
    (h : processLine limit igs src idx raw = some f) : f.line_no = idx := by
  obtain ⟨-, -, -, rfl⟩ := processLine_eq_some_iff.mp h
  rfl

/-- A produced failure records the source it was given. -/
theorem processLine_path {limit : Int} {igs : List String} {src : Src}
    {idx : Nat} {raw : String} {f : Failure}
    (h : processLine limit igs src idx raw = some f) : f.path = src := by
  obtain ⟨-, -, -, rfl⟩ := processLine_eq_some_iff.mp h
  rfl

/-- Line numbers of collected failures never precede the running counter. -/
theorem check_streamAux_line_no_ge {limit : Int} {igs : List String} {src : Src} :
    ∀ (text : List String) (start : Nat) (f : Failure),
      f ∈ check_streamAux limit igs src start text → start ≤ f.line_no := by
  intro text
  induction text with
  | nil => intro start f h; simp [check_streamAux] at h
  | cons x xs ih =>
    intro start f h
    cases hp : processLine limit igs src start x with
    | none =>
      simp only [check_streamAux, hp] at h
      exact Nat.le_of_succ_le (ih (start + 1) f h)
    | some g =>
      simp only [check_streamAux, hp, List.mem_cons] at h
      rcases h with rfl | h
      · exact Nat.le_of_eq (processLine_line_no hp).symm
      · exact Nat.le_of_succ_le (ih (start + 1) f h)

/-- The failures whose line number is `start + i` are exactly the outcome of
processing line `i` (0-based) of the text with counter `start + i`. -/
theorem check_streamAux_filter {limit : Int} {igs : List String} {src : Src} :
    ∀ (text : List String) (start i : Nat) (l : String), text[i]? = some l →
      (check_streamAux limit igs src start text).filter
          (fun f => decide (f.line_no = start + i)) =
        (processLine limit igs src (start + i) l).toList := by
  intro text
  induction text with
  | nil => intro start i l h; simp at h
  | cons x xs ih =>
    intro start i l h
    cases i with
    | zero =>
      have hx : x = l := by simpa using h
      rw [← hx]
      simp only [Nat.add_zero]
      cases hp : processLine limit igs src start x with
      | none =>
        simp only [check_streamAux, hp, Option.toList]
        refine List.filter_eq_nil_iff.mpr ?_
        intro f hf
        have hge := check_streamAux_line_no_ge xs (start + 1) f hf
        simp only [decide_eq_true_eq]
        omega
      | some g =>
        have hg : g.line_no = start := processLine_line_no hp
        have htail : (check_streamAux limit igs src (start + 1) xs).filter
            (fun f => decide (f.line_no = start)) = [] := by
          refine List.filter_eq_nil_iff.mpr ?_
          intro f hf
          have hge := check_streamAux_line_no_ge xs (start + 1) f hf
          simp only [decide_eq_true_eq]
          omega
        simp [check_streamAux, hp, List.filter_cons, hg, htail, Option.toList]
    | succ i =>
      have hx : xs[i]? = some l := by simpa using h
      have key : start + (i + 1) = (start + 1) + i := by omega
      cases hp : processLine limit igs src start x with
      | none =>
        simp only [check_streamAux, hp, key]
        exact ih (start + 1) i l hx
      | some g =>
        have hg : g.line_no = start := processLine_line_no hp
        have hd : (decide (g.line_no = start + 1 + i)) = false := by
          simp only [decide_eq_false_iff_not, hg]
          omega
        simp only [check_streamAux, hp, key, List.filter_cons, hd, Bool.false_eq_true,
          if_false]
        exact ih (start + 1) i l hx

/-- Every collected failure comes from processing some line of the text at
its position, with the matching counter value. -/
theorem check_streamAux_mem {limit : Int} {igs : List String} {src : Src} :
    ∀ (text : List String) (start : Nat) (f : Failure),
      f ∈ check_streamAux limit igs src start text →
      ∃ i l, text[i]? = some l ∧
        processLine limit igs src (start + i) l = some f := by
  intro text
  induction text with
  | nil => intro start f h; simp [check_streamAux] at h
  | cons x xs ih =>
    intro start f h
    cases hp : processLine limit igs src start x with
    | none =>
      simp only [check_streamAux, hp] at h
      obtain ⟨i, l, hl, hpl⟩ := ih (start + 1) f h
      refine ⟨i + 1, l, by simpa using hl, ?_⟩
      have key : start + (i + 1) = (start + 1) + i := by omega
      rw [key]
      exact hpl
    | some g =>
      simp only [check_streamAux, hp, List.mem_cons] at h
      rcases h with rfl | h
      · exact ⟨0, x, by simp, by simpa using hp⟩
      · obtain ⟨i, l, hl, hpl⟩ := ih (start + 1) f h
        refine ⟨i + 1, l, by simpa using hl, ?_⟩
        have key : start + (i + 1) = (start + 1) + i := by omega
        rw [key]
        exact hpl

/-- A trailing-drop leaves nothing exactly when every character satisfies
the predicate. -/
theorem dropTrailing_eq_nil_iff {p : Char → Bool} :
    ∀ {l : List Char}, dropTrailing p l = [] ↔ ∀ c ∈ l, p c = true := by
  intro l
  induction l with
  | nil => simp [dropTrailing]
  | cons c cs ih =>
    constructor
    · intro hnil d hd
      rcases List.mem_cons.mp hd with rfl | hd
      · by_cases hr : dropTrailing p cs = []
        · by_cases hc : p d = true
          · exact hc
          · simp [dropTrailing, hr, hc] at hnil
        · simp [dropTrailing, hr] at hnil
      · refine ih.mp ?_ d hd
        by_cases hr : dropTrailing p cs = []
        · exact hr
        · simp [dropTrailing, hr] at hnil
    · intro hall
      have hcs : dropTrailing p cs = [] :=
        ih.mpr (fun d hd => hall d (List.mem_cons_of_mem c hd))
      have hc : p c = true := hall c (List.mem_cons_self c cs)
      simp [dropTrailing, hcs, hc]

/-- Dropping a weaker trailing run after a stronger one collapses to the
stronger drop alone. -/
theorem dropTrailing_dropTrailing {p q : Char → Bool}
    (hpq : ∀ c, q c = true → p c = true) :
    ∀ l : List Char, dropTrailing p (dropTrailing q l) = dropTrailing p l := by
  intro l
  induction l with
  | nil => rfl
  | cons c cs ih =>
    by_cases hr : dropTrailing q cs = []
    · have hs : dropTrailing p cs = [] := by rw [← ih, hr]; rfl
      by_cases hc : q c = true
      · have hpc : p c = true := hpq c hc
        simp [dropTrailing, hr, hs, hc, hpc]
      · simp [dropTrailing, hr, hs, hc]
    · simp [dropTrailing, hr, ih]

/-- Stripping the trailing `q`-run first does not change a whole
`strip`-style trim by the weaker predicate `p`. -/
theorem dropTrailing_dropWhile_comm {p q : Char → Bool}
    (hpq : ∀ c, q c = true → p c = true) :
    ∀ l : List Char,
      dropTrailing p ((dropTrailing q l).dropWhile p) =
        dropTrailing p (l.dropWhile p) := by
  intro l
  induction l with
  | nil => rfl
  | cons c cs ih =>
    by_cases hr : dropTrailing q cs = []
    · have hcs : ∀ d ∈ cs, q d = true := dropTrailing_eq_nil_iff.mp hr
      have hwcs : cs.dropWhile p = [] :=
        List.dropWhile_eq_nil_iff.mpr (fun d hd => hpq d (hcs d hd))
      by_cases hc : q c = true
      · have hpc : p c = true := hpq c hc
        simp [dropTrailing, hr, hc, hpc, List.dropWhile_cons, hwcs]
      · by_cases hp : p c = true
        · simp [dropTrailing, hr, hc, hp, List.dropWhile_cons, hwcs]
        · have hpcs : dropTrailing p cs = [] := by
            rw [← dropTrailing_dropTrailing hpq cs, hr]; rfl
          simp [dropTrailing, hr, hc, hp, List.dropWhile_cons, hpcs]
    · have hpr : dropTrailing p (dropTrailing q cs) = dropTrailing p cs :=
        dropTrailing_dropTrailing hpq cs
      by_cases hp : p c = true
      · simpa [dropTrailing, hr, hp, List.dropWhile_cons] using ih
      · simp [dropTrailing, hr, hp, List.dropWhile_cons, hpr]

/-- Trailing newlines are whitespace, so `rstrip("\n")` before `strip()`
changes nothing. -/
theorem pyStrip_rstripNewlines (s : String) :
    pyStrip (rstripNewlines s) = pyStrip s := by
  refine congrArg String.mk ?_
  exact dropTrailing_dropWhile_comm
    (by intro c h; rw [decide_eq_true_eq] at h; subst h; decide) s.data

/-- What `dropTrailing` removes is a suffix all of whose characters satisfy
the predicate. -/
theorem dropTrailing_append {p : Char → Bool} :
    ∀ l : List Char, ∃ t, l = dropTrailing p l ++ t ∧ ∀ c ∈ t, p c = true := by
  intro l
  induction l with
  | nil => exact ⟨[], rfl, by simp⟩
  | cons c cs ih =>
    obtain ⟨t, ht, hall⟩ := ih
    by_cases hr : dropTrailing p cs = []
    · by_cases hc : p c = true
      · refine ⟨c :: cs, by simp [dropTrailing, hr, hc], ?_⟩
        intro d hd
        rcases List.mem_cons.mp hd with rfl | hd
        · exact hc
        · rw [hr] at ht
          simp only [List.nil_append] at ht
          exact hall d (ht ▸ hd)
      · refine ⟨t, ?_, hall⟩
        rw [hr] at ht
        simp only [List.nil_append] at ht
        simp [dropTrailing, hr, hc, ← ht]
    · refine ⟨t, ?_, hall⟩
      simp [dropTrailing, hr, ← ht]

/-- The last character surviving a trailing-drop fails the predicate. -/
theorem dropTrailing_getLast {p : Char → Bool} :
    ∀ (l : List Char) (c : Char),
      (dropTrailing p l).getLast? = some c → p c = false := by
  intro l
  induction l with
  | nil => intro c h; simp [dropTrailing] at h
  | cons x xs ih =>
    intro c h
    by_cases hr : dropTrailing p xs = []
    · by_cases hx : p x = true
      · simp [dropTrailing, hr, hx] at h
      · simp [dropTrailing, hr, hx] at h
        subst h
        cases hpx : p x with
        | true => exact absurd hpx hx
        | false => rfl
    · cases hrv : dropTrailing p xs with
      | nil => exact absurd hrv hr
      | cons e es =>
        have hd : (x :: e :: es).getLast? = some c := by
          simpa [dropTrailing, hr, hrv] using h
        rw [List.getLast?_cons_cons] at hd
        rw [← hrv] at hd
        exact ih c hd

/-- Transitivity of the path string order. -/
theorem strLeB_trans :
    ∀ (a b c : List Char), strLeB a b = true → strLeB b c = true →
      strLeB a c = true := by
  intro a
  induction a with
  | nil => intro b c h1 h2; rfl
  | cons x xs ih =>
    intro b c h1 h2
    cases b with
    | nil => simp [strLeB] at h1
    | cons y ys =>
      cases c with
      | nil => simp [strLeB] at h2
      | cons z zs =>
        simp only [strLeB] at h1 h2 ⊢
        by_cases hxy : x = y
        · subst hxy
          by_cases hyz : x = z
          · subst hyz
            rw [if_pos rfl] at h1 h2 ⊢
            exact ih ys zs h1 h2
          · rw [if_neg hyz] at h2 ⊢
            exact h2
        · rw [if_neg hxy] at h1
          by_cases hyz : y = z
          · subst hyz
            rw [if_neg hxy]
            exact h1
          · rw [if_neg hyz] at h2
            rw [decide_eq_true_eq] at h1 h2
            have hxz : x < z := lt_trans h1 h2
            rw [if_neg (ne_of_lt hxz), decide_eq_true_eq]
            exact hxz

/-- Totality of the path string order. -/
theorem strLeB_total :
    ∀ (a b : List Char), strLeB a b = true ∨ strLeB b a = true := by
  intro a
  induction a with
  | nil => intro b; left; rfl
  | cons x xs ih =>
    intro b
    cases b with
    | nil => right; rfl
    | cons y ys =>
      simp only [strLeB]
      by_cases hxy : x = y
      · subst hxy
        rw [if_pos rfl, if_pos rfl]
        exact ih ys
      · have hyx : ¬(y = x) := fun h => hxy h.symm
        rw [if_neg hxy, if_neg hyx]
        rcases lt_or_gt_of_ne hxy with h | h
        · exact Or.inl (decide_eq_true h)
        · exact Or.inr (decide_eq_true h)

instance : IsTrans String strLe :=
  ⟨fun a b c => strLeB_trans a.data b.data c.data⟩

instance : IsTotal String strLe :=
  ⟨fun a b => strLeB_total a.data b.data⟩

/-- The extension filter passes exactly when the accepted set is empty or it
contains the lower-cased suffix (compared lower-cased). -/
theorem extPass_iff {exts : List String} {p : String} :
    extPass exts p = true ↔
      (exts = [] ∨ pyLower (suffixOf p) ∈ exts.map pyLower) := by
  simp [extPass]

/-- Every file entry `iter_paths` yields from one input passed the extension
filter and is a regular file. -/
theorem iterEntry_ok_file_mem {fs : FS} {exts : List String} {raw : String}
    {es : List Entry} {q : String}
    (he : iterEntry fs exts raw = Except.ok es) (hq : Entry.file q ∈ es) :
    fs.isFile q = true ∧ extPass exts q = true := by
  unfold iterEntry at he
  by_cases h1 : raw = "-"
  · rw [if_pos h1] at he
    injection he with he
    subst he
    simp at hq
  · rw [if_neg h1] at he
    by_cases h2 : fs.pathExists raw = false
    · rw [if_pos h2] at he
      simp at he
    · rw [if_neg h2] at he
      by_cases h3 : fs.isFile raw = true
      · rw [if_pos h3] at he
        by_cases h4 : extPass exts raw = true
        · rw [if_pos h4] at he
          injection he with he
          subst he
          simp only [List.mem_singleton, Entry.file.injEq] at hq
          subst hq
          exact ⟨h3, h4⟩
        · rw [if_neg h4] at he
          injection he with he
          subst he
          simp at hq
      · rw [if_neg h3] at he
        injection he with he
        subst he
        unfold dirScan at hq
        obtain ⟨x, hx, hxq⟩ := List.mem_map.mp hq
        obtain ⟨-, hpred⟩ := List.mem_filter.mp hx
        injection hxq with hxq
        subst hxq
        simp only [Bool.and_eq_true] at hpred
        exact hpred

/-- Every file entry `iter_paths` yields passed the extension filter and is
a regular file. -/
theorem mem_iterPaths_file {fs : FS} {exts : List String} :
    ∀ (inputs : List String) (q : String),
      Entry.file q ∈ (iterPaths fs inputs exts).1 →
      fs.isFile q = true ∧ extPass exts q = true := by
  intro inputs
  induction inputs with
  | nil => intro q h; simp [iterPaths] at h
  | cons raw rest ih =>
    intro q h
    cases he : iterEntry fs exts raw with
    | error e => simp [iterPaths, he] at h
    | ok es =>
      simp only [iterPaths, he] at h
      rcases List.mem_append.mp h with h | h
      · exact iterEntry_ok_file_mem he h
      · exact ih q h

/-- When some input path is neither the sentinel nor present on the
filesystem, the enumerator raises on a missing non-sentinel input. -/
theorem iterPaths_missing {fs : FS} {exts : List String} :
    ∀ (inputs : List String) (p : String), p ∈ inputs → p ≠ "-" →
      fs.pathExists p = false →
      ∃ bad, (iterPaths fs inputs exts).2 = some bad ∧ bad ∈ inputs ∧
        bad ≠ "-" ∧ fs.pathExists bad = false := by
  intro inputs
  induction inputs with
  | nil => intro p h; simp at h
  | cons raw rest ih =>
    intro p hp hpd hpe
    by_cases hraw : raw = "-"
    · have hne : p ∈ rest := by
        rcases List.mem_cons.mp hp with rfl | h
        · exact absurd hraw hpd
        · exact h
      obtain ⟨bad, h2, hmem, hbd, hbe⟩ := ih p hne hpd hpe
      refine ⟨bad, ?_, List.mem_cons_of_mem _ hmem, hbd, hbe⟩
      simp [iterPaths, iterEntry, hraw, h2]
    · by_cases hex : fs.pathExists raw = false
      · refine ⟨raw, ?_, List.mem_cons_self _ _, hraw, hex⟩
        simp [iterPaths, iterEntry, hraw, hex]
      · have hex2 : fs.pathExists raw = true := by
          cases hv : fs.pathExists raw with
          | true => rfl
          | false => exact absurd hv hex
        have hne : p ∈ rest := by
          rcases List.mem_cons.mp hp with rfl | h
          · rw [hpe] at hex2
            exact absurd hex2 (by simp)
          · exact h
        obtain ⟨bad, h2, hmem, hbd, hbe⟩ := ih p hne hpd hpe
        refine ⟨bad, ?_, List.mem_cons_of_mem _ hmem, hbd, hbe⟩
        by_cases hf : fs.isFile raw = true
        · simp [iterPaths, iterEntry, hraw, hex2, hf, h2]
        · simp [iterPaths, iterEntry, hraw, hex2, hf, h2]

/-- Claim C1: for every line of the text that is not skipped (its
whitespace-trimmed copy is non-empty and matches no ignore prefix),
`check_stream` produces a violation for that line number exactly when the
UTF-8 byte length of the newline-stripped line strictly exceeds the limit;
when produced it is unique, its `byte_len` is the exact encoded length and
its `limit` is the configured limit. -/
theorem claim_C1 (text : List String) (limit : Int) (igs : List String)
    (src : Src) (i : Nat) (l : String) (hl : text[i]? = some l)
    (hne : pyStrip (rstripNewlines l) ≠ "")
    (hig : ∀ pfx ∈ igs, pyStartsWith (pyStrip (rstripNewlines l)) pfx = false) :
    (check_stream text limit igs src).filter
        (fun f => decide (f.line_no = i + 1)) =
      (if (utf8Len (rstripNewlines l) : Int) > limit
       then [⟨src, i + 1, utf8Len (rstripNewlines l), limit,
             previewOf (pyStrip (rstripNewlines l))⟩]
       else []) := by
  have key : (1 : Nat) + i = i + 1 := Nat.add_comm 1 i
  have h := @check_streamAux_filter limit igs src text 1 i l hl
  simp only [key] at h
  unfold check_stream
  rw [h]
  by_cases hgt : (utf8Len (rstripNewlines l) : Int) > limit
  · rw [if_pos hgt]
    have hany : (igs.any fun pfx =>
        pyStartsWith (pyStrip (rstripNewlines l)) pfx) = false := by
      simp only [List.any_eq_false, Bool.not_eq_true]
      exact hig
    have hsome : processLine limit igs src (i + 1) l =
        some ⟨src, i + 1, utf8Len (rstripNewlines l), limit,
              previewOf (pyStrip (rstripNewlines l))⟩ :=
      processLine_eq_some_iff.mpr ⟨hne, hany, hgt, rfl⟩
    rw [hsome]
    rfl
  · rw [if_neg hgt]
    have hnone : processLine limit igs src (i + 1) l = none := by
      cases hp : processLine limit igs src (i + 1) l with
      | none => rfl
      | some f =>
        obtain ⟨-, -, h3, -⟩ := processLine_eq_some_iff.mp hp
        exact absurd h3 hgt
    rw [hnone]
    rfl

/-- Witness for C1: a 3-byte line against limit 2, at line number 1. -/
theorem claim_C1_witness :
    (check_stream ["aaa\n"] 2 ["#"] (Src.fsPath "f")).filter
        (fun f => decide (f.line_no = 0 + 1)) =
      (if (utf8Len (rstripNewlines "aaa\n") : Int) > 2
       then [⟨Src.fsPath "f", 0 + 1, utf8Len (rstripNewlines "aaa\n"), 2,
             previewOf (pyStrip (rstripNewlines "aaa\n"))⟩]
       else []) :=
  claim_C1 ["aaa\n"] 2 ["#"] (Src.fsPath "f") 0 "aaa\n" (by decide) (by decide)
    (by decide)

/-- Claim C4: a line whose whitespace-trimmed copy is empty, or whose
trimmed copy starts with a configured ignore prefix, contributes no
violation record at its line number, whatever its byte length. -/
theorem claim_C4 (text : List String) (limit : Int) (igs : List String)
    (src : Src) (i : Nat) (l : String) (hl : text[i]? = some l)
    (hskip : pyStrip l = "" ∨ ∃ pfx ∈ igs, pyStartsWith (pyStrip l) pfx = true) :
    (check_stream text limit igs src).filter
        (fun f => decide (f.line_no = i + 1)) = [] := by
  have key : (1 : Nat) + i = i + 1 := Nat.add_comm 1 i
  have h := @check_streamAux_filter limit igs src text 1 i l hl
  simp only [key] at h
  unfold check_stream
  rw [h]
  have hnone : processLine limit igs src (i + 1) l = none := by
    cases hp : processLine limit igs src (i + 1) l with
    | none => rfl
    | some f =>
      obtain ⟨h1, h2, -, -⟩ := processLine_eq_some_iff.mp hp
      simp only [pyStrip_rstripNewlines] at h1 h2
      rcases hskip with hs | ⟨pfx, hmem, hsw⟩
      · exact absurd hs h1
      · rw [List.any_eq_false] at h2
        have := h2 pfx hmem
        simp [hsw] at this
  rw [hnone]
  rfl

/-- Witness for C4: a whitespace-only line of 4 bytes against limit 0. -/
theorem claim_C4_witness :
    (check_stream ["   \n"] 0 [] (Src.fsPath "f")).filter
        (fun f => decide (f.line_no = 0 + 1)) = [] :=
  claim_C4 ["   \n"] 0 [] (Src.fsPath "f") 0 "   \n" (by decide)
    (Or.inl (by decide))

/-- Claim C5: every violation's preview comes from the trimmed line; a
trimmed line of more than 60 characters yields its first 57 characters plus
`"..."`, exactly 60 characters; a trimmed line of at most 60 characters is
the preview unchanged. -/
theorem claim_C5 (text : List String) (limit : Int) (igs : List String)
    (src : Src) (f : Failure) (hf : f ∈ check_stream text limit igs src) :
    ∃ raw, raw ∈ text ∧
      ((pyStrip (rstripNewlines raw)).length > 60 →
        f.preview = pySlice 57 (pyStrip (rstripNewlines raw)) ++ "..." ∧
          f.preview.length = 60) ∧
      ((pyStrip (rstripNewlines raw)).length ≤ 60 →
        f.preview = pyStrip (rstripNewlines raw)) := by
  unfold check_stream at hf
  obtain ⟨i, l, hl, hp⟩ := check_streamAux_mem text 1 f hf
  obtain ⟨-, -, -, rfl⟩ := processLine_eq_some_iff.mp hp
  refine ⟨l, List.getElem?_mem hl, ?_, ?_⟩
  · intro hgt
    constructor
    · simp only [previewOf, if_pos hgt]
    · simp only [previewOf, if_pos hgt]
      have h57 : (pySlice 57 (pyStrip (rstripNewlines l))).length = 57 := by
        show ((pyStrip (rstripNewlines l)).data.take 57).length = 57
        rw [List.length_take]
        have hlen : 60 < (pyStrip (rstripNewlines l)).data.length := hgt
        omega
      rw [String.length_append, h57]
      rfl
  · intro hle
    have hng : ¬((pyStrip (rstripNewlines l)).length > 60) := by omega
    simp only [previewOf, if_neg hng]

/-- Witness for C5: a 65-character line against limit 10 yields a preview of
the first 57 characters plus an ellipsis. -/
theorem claim_C5_witness :
    ∃ raw,
      raw ∈ ["aaaaaaaaaaaaaaaaaaaaaaaaaaaaaaaaaaaaaaaaaaaaaaaaaaaaaaaaaaaaaaaaa\n"] ∧
      ((pyStrip (rstripNewlines raw)).length > 60 →
        (⟨Src.fsPath "f", 1, 65, 10,
          "aaaaaaaaaaaaaaaaaaaaaaaaaaaaaaaaaaaaaaaaaaaaaaaaaaaaaaaaa..."⟩ :
            Failure).preview =
          pySlice 57 (pyStrip (rstripNewlines raw)) ++ "..." ∧
        (⟨Src.fsPath "f", 1, 65, 10,
          "aaaaaaaaaaaaaaaaaaaaaaaaaaaaaaaaaaaaaaaaaaaaaaaaaaaaaaaaa..."⟩ :
            Failure).preview.length = 60) ∧
      ((pyStrip (rstripNewlines raw)).length ≤ 60 →
        (⟨Src.fsPath "f", 1, 65, 10,
          "aaaaaaaaaaaaaaaaaaaaaaaaaaaaaaaaaaaaaaaaaaaaaaaaaaaaaaaaa..."⟩ :
            Failure).preview = pyStrip (rstripNewlines raw)) :=
  claim_C5 ["aaaaaaaaaaaaaaaaaaaaaaaaaaaaaaaaaaaaaaaaaaaaaaaaaaaaaaaaaaaaaaaaa\n"]
    10 [] (Src.fsPath "f")
    ⟨Src.fsPath "f", 1, 65, 10,
      "aaaaaaaaaaaaaaaaaaaaaaaaaaaaaaaaaaaaaaaaaaaaaaaaaaaaaaaaa..."⟩
    (by decide)

/-- Counterexample to C2: the code's `rstrip("\n")` removes every trailing
newline, not exactly one.  The line `"aa\n\n"` measures 3 bytes after
removing exactly one newline, which exceeds limit 2, yet `check_stream`
reports nothing because it measured only 2 bytes. -/
theorem claim_C2_counterexample :
    utf8Len (stripOneNewline "aa\n\n") = 3 ∧ ((3 : Int) > 2) ∧
      pyStrip "aa\n\n" ≠ "" ∧
      check_stream ["aa\n\n"] 2 [] (Src.fsPath "f") = [] ∧
      utf8Len (rstripNewlines "aa\n\n") = 2 := by
  refine ⟨by decide, by decide, by decide, by decide, by decide⟩

/-- Claim C2 as amended: before measuring, `check_stream` strips the entire
maximal run of trailing newline characters (and nothing else) from the raw
line; the measured `byte_len` is the UTF-8 length of that stripped line. -/
theorem claim_C2_amended (raw : String) :
    (∃ k, raw.data = (rstripNewlines raw).data ++ List.replicate k '\n') ∧
    (∀ c, (rstripNewlines raw).data.getLast? = some c → c ≠ '\n') ∧
    (∀ (limit : Int) (igs : List String) (src : Src) (idx : Nat) (f : Failure),
      processLine limit igs src idx raw = some f →
        f.byte_len = utf8Len (rstripNewlines raw)) := by
  refine ⟨?_, ?_, ?_⟩
  · obtain ⟨t, ht, hall⟩ :=
      @dropTrailing_append (fun c => decide (c = '\n')) raw.data
    refine ⟨t.length, ?_⟩
    have hrep : t = List.replicate t.length '\n' :=
      List.eq_replicate_of_mem (fun b hb => by
        have hx := hall b hb
        rwa [decide_eq_true_eq] at hx)
    calc raw.data
        = dropTrailing (fun c => decide (c = '\n')) raw.data ++ t := ht
      _ = (rstripNewlines raw).data ++ List.replicate t.length '\n' := by
          rw [← hrep]; rfl
  · intro c hc
    have hx := @dropTrailing_getLast (fun c => decide (c = '\n')) raw.data c hc
    simpa using hx
  · intro limit igs src idx f hp
    obtain ⟨-, -, -, rfl⟩ := processLine_eq_some_iff.mp hp
    rfl

/-- Witness for the amended C2: `"aaa\n\n"` loses both trailing newlines and
measures 3 bytes. -/
theorem claim_C2_amended_witness :
    ("aaa\n\n".data = (rstripNewlines "aaa\n\n").data ++ List.replicate 2 '\n') ∧
    processLine 2 [] (Src.fsPath "f") 1 "aaa\n\n" =
      some ⟨Src.fsPath "f", 1, 3, 2, "aaa"⟩ ∧
    (⟨Src.fsPath "f", 1, 3, 2, "aaa"⟩ : Failure).byte_len =
      utf8Len (rstripNewlines "aaa\n\n") :=
  ⟨by decide, by decide,
    (claim_C2_amended "aaa\n\n").2.2 2 [] (Src.fsPath "f") 1 _ (by decide)⟩

/-- Counterexample to C3: a stream (`"-"`) violation is formatted with the
literal location `"stdin"`, not with the sentinel token `"-"`; the message
does not begin with `"-"`. -/
theorem claim_C3_counterexample :
    run ⟨[], []⟩ ["aaa\n"] ⟨["-"], 2, "", "", false⟩ =
      Except.ok ⟨1, ["Checked 1 file with 1 violation(s)."],
        ["stdin exceeds limit (3 > 2 bytes): aaa"]⟩ ∧
    pyStartsWith "stdin exceeds limit (3 > 2 bytes): aaa" "-" = false :=
  ⟨rfl, by decide⟩

/-- Claim C3 as amended: a violation collected from a stream source formats
with the literal location `"stdin"`; a violation from a file formats with
the file path, a colon and the 1-based line number. -/
theorem claim_C3_amended (text : List String) (limit : Int) (igs : List String)
    (f : Failure) :
    (∀ s, f ∈ check_stream text limit igs (Src.str s) →
      f.format = "stdin" ++ " exceeds limit (" ++ toString f.byte_len ++
        " > " ++ toString f.limit ++ " bytes): " ++ f.preview) ∧
    (∀ p, f ∈ check_stream text limit igs (Src.fsPath p) →
      f.format = p ++ ":" ++ toString f.line_no ++ " exceeds limit (" ++
        toString f.byte_len ++ " > " ++ toString f.limit ++ " bytes): " ++
        f.preview) := by
  constructor
  · intro s hf
    unfold check_stream at hf
    obtain ⟨i, l, hl, hp⟩ := check_streamAux_mem text 1 f hf
    have hpath := processLine_path hp
    simp [Failure.format, hpath]
  · intro p hf
    unfold check_stream at hf
    obtain ⟨i, l, hl, hp⟩ := check_streamAux_mem text 1 f hf
    have hpath := processLine_path hp
    simp [Failure.format, hpath]

/-- Witness for the amended C3: the stream-sourced violation of the C3
counterexample formats with location `"stdin"`. -/
theorem claim_C3_amended_witness :
    (⟨Src.str "stdin", 1, 3, 2, "aaa"⟩ : Failure).format =
      "stdin" ++ " exceeds limit (" ++ toString (3 : Nat) ++ " > " ++
        toString (2 : Int) ++ " bytes): " ++ "aaa" :=
  (claim_C3_amended ["aaa\n"] 2 [] ⟨Src.str "stdin", 1, 3, 2, "aaa"⟩).1 "stdin"
    (by decide)

/-- The exit status reported by `run`'s tail depends only on whether any
failures were collected. -/
theorem report_exitCode (q : Bool) (n : Nat) (F : List Failure) :
    (report q n F).exitCode = if F = [] then 0 else 1 := by
  unfold report
  by_cases hF : F = [] <;> simp [hF]

/-- Claim C6: when every path exists (so `run` completes), the exit status
is 0 exactly when no violations were collected and 1 exactly when at least
one was; the quiet flag has no effect on the exit status. -/
theorem claim_C6 (fs : FS) (stdin : List String) (ps : List String)
    (lim : Int) (ea ia : String) (qt : Bool) (r : RunOutcome)
    (h : run fs stdin ⟨ps, lim, ea, ia, qt⟩ = Except.ok r) :
    (r.exitCode = 0 ↔ runFailures fs stdin ⟨ps, lim, ea, ia, qt⟩ = []) ∧
    (r.exitCode = 1 ↔ runFailures fs stdin ⟨ps, lim, ea, ia, qt⟩ ≠ []) ∧
    ∀ (q2 : Bool) (r2 : RunOutcome),
      run fs stdin ⟨ps, lim, ea, ia, q2⟩ = Except.ok r2 →
      r2.exitCode = r.exitCode := by
  simp only [run] at h
  cases hit : (iterPaths fs ps (parseCommaList ea)).2 with
  | some bad =>
    rw [hit] at h
    simp at h
  | none =>
    rw [hit] at h
    simp only [] at h
    injection h with h
    subst h
    refine ⟨?_, ?_, ?_⟩
    · rw [report_exitCode]
      by_cases hF : runFailures fs stdin ⟨ps, lim, ea, ia, qt⟩ = [] <;> simp [hF]
    · rw [report_exitCode]
      by_cases hF : runFailures fs stdin ⟨ps, lim, ea, ia, qt⟩ = [] <;> simp [hF]
    · intro q2 r2 hq2
      simp only [run] at hq2
      rw [hit] at hq2
      simp only [] at hq2
      injection hq2 with hq2
      subst hq2
      rw [report_exitCode, report_exitCode]
      rfl

/-- Witness for C6: a one-file run with one violation exits with status 1,
and the quiet run agrees. -/
theorem claim_C6_witness :
    ((⟨1, ["Checked 1 file with 1 violation(s)."],
        ["x.md:1 exceeds limit (4 > 2 bytes): aaaa"]⟩ : RunOutcome).exitCode = 0 ↔
      runFailures ⟨[("x.md", ["aaaa\n"])], []⟩ [] ⟨["x.md"], 2, ".md", "", false⟩ = []) ∧
    ((⟨1, ["Checked 1 file with 1 violation(s)."],
        ["x.md:1 exceeds limit (4 > 2 bytes): aaaa"]⟩ : RunOutcome).exitCode = 1 ↔
      runFailures ⟨[("x.md", ["aaaa\n"])], []⟩ [] ⟨["x.md"], 2, ".md", "", false⟩ ≠ []) ∧
    ∀ (q2 : Bool) (r2 : RunOutcome),
      run ⟨[("x.md", ["aaaa\n"])], []⟩ [] ⟨["x.md"], 2, ".md", "", q2⟩ =
        Except.ok r2 →
      r2.exitCode =
        (⟨1, ["Checked 1 file with 1 violation(s)."],
          ["x.md:1 exceeds limit (4 > 2 bytes): aaaa"]⟩ : RunOutcome).exitCode :=
  claim_C6 ⟨[("x.md", ["aaaa\n"])], []⟩ [] ["x.md"] 2 ".md" "" false
    ⟨1, ["Checked 1 file with 1 violation(s)."],
      ["x.md:1 exceeds limit (4 > 2 bytes): aaaa"]⟩ rfl

/-- Claim C7: an input entry other than `"-"` that does not exist makes the
whole run abort with a path-not-found error naming a missing non-sentinel
entry; no outcome (and hence no output) is produced. -/
theorem claim_C7 (fs : FS) (stdin : List String) (ps : List String)
    (lim : Int) (ea ia : String) (qt : Bool) (p : String)
    (hp : p ∈ ps) (hpd : p ≠ "-") (hpe : fs.pathExists p = false) :
    ∃ bad, run fs stdin ⟨ps, lim, ea, ia, qt⟩ = Except.error bad ∧
      bad ∈ ps ∧ bad ≠ "-" ∧ fs.pathExists bad = false := by
  obtain ⟨bad, h2, hmem, hbd, hbe⟩ :=
    @iterPaths_missing fs (parseCommaList ea) ps p hp hpd hpe
  refine ⟨bad, ?_, hmem, hbd, hbe⟩
  simp only [run]
  rw [h2]

/-- Witness for C7: a run over a single missing path errors on it. -/
theorem claim_C7_witness :
    ∃ bad, run ⟨[], []⟩ [] ⟨["gone"], 2, "", "", false⟩ = Except.error bad ∧
      bad ∈ ["gone"] ∧ bad ≠ "-" ∧ FS.pathExists ⟨[], []⟩ bad = false :=
  claim_C7 ⟨[], []⟩ [] ["gone"] 2 "" "" false "gone" (by decide) (by decide)
    (by decide)

/-- Claim C10: the comma lists `run` derives from `--extensions` and
`--ignore-prefix` never contain an empty string: empty or whitespace-only
fields are discarded by the parse. -/
theorem claim_C10 (s x : String) (hx : x ∈ parseCommaList s) : x ≠ "" := by
  simp only [parseCommaList, List.mem_filterMap] at hx
  obtain ⟨e, he, hfe⟩ := hx
  by_cases ht : String.mk (pyStripL e) = ""
  · rw [if_pos ht] at hfe
    exact Option.noConfusion hfe
  · rw [if_neg ht] at hfe
    injection hfe with hfe
    rw [← hfe]
    exact ht

/-- Witness for C10: parsing `" a ,,b"` yields `"a"`, a non-empty entry. -/
theorem claim_C10_witness :
    ("a" ∈ parseCommaList " a ,,b") ∧ "a" ≠ "" :=
  ⟨by decide, claim_C10 " a ,,b" "a" (by decide)⟩

/-- Claim C8: a directly named regular file is yielded exactly when the
accepted set is empty or contains its lower-cased dotted extension; a
directory yields exactly its descendant regular files passing the same
filter, in sorted full-path order; and an empty `--extensions` string parses
to the empty accepted set, under which every file passes. -/
theorem claim_C8 (fs : FS) (exts : List String) :
    (∀ p, p ≠ "-" → fs.isFile p = true →
      ((iterPaths fs [p] exts).1 =
        if extPass exts p then [Entry.file p] else []) ∧
      (Entry.file p ∈ (iterPaths fs [p] exts).1 ↔
        (exts = [] ∨ pyLower (suffixOf p) ∈ exts.map pyLower))) ∧
    (∀ d, d ≠ "-" → fs.isDir d = true → fs.isFile d = false →
      ∃ ps : List String,
        (iterPaths fs [d] exts).1 = ps.map Entry.file ∧
        List.Sorted strLe ps ∧
        (∀ q, q ∈ ps ↔
          (isUnder d q = true ∧ fs.isFile q = true ∧
            (exts = [] ∨ pyLower (suffixOf q) ∈ exts.map pyLower)))) ∧
    parseCommaList "" = [] := by
  refine ⟨?_, ?_, by decide⟩
  · intro p hpd hpf
    have hie : iterEntry fs exts p =
        Except.ok (if extPass exts p then [Entry.file p] else []) := by
      unfold iterEntry
      rw [if_neg hpd, if_neg (by simp [FS.pathExists, hpf]), if_pos hpf]
    have h1 : (iterPaths fs [p] exts).1 =
        (if extPass exts p then [Entry.file p] else []) := by
      simp [iterPaths, hie]
    refine ⟨h1, ?_⟩
    rw [h1]
    by_cases hx : extPass exts p = true
    · rw [if_pos hx]
      exact ⟨fun _ => extPass_iff.mp hx, fun _ => List.mem_singleton.mpr rfl⟩
    · rw [if_neg hx]
      exact ⟨fun h => absurd h (List.not_mem_nil _),
        fun hcon => absurd (extPass_iff.mpr hcon) hx⟩
  · intro d hdd hdir hdf
    have hie : iterEntry fs exts d = Except.ok (dirScan fs exts d) := by
      unfold iterEntry
      rw [if_neg hdd, if_neg (by simp [FS.pathExists, hdir]),
        if_neg (by simp [hdf])]
    have h1 : (iterPaths fs [d] exts).1 = dirScan fs exts d := by
      simp [iterPaths, hie]
    refine ⟨(fs.rglob d).filter (fun q => fs.isFile q && extPass exts q),
      ?_, ?_, ?_⟩
    · rw [h1]
      rfl
    · exact List.Pairwise.filter _ (List.sorted_insertionSort strLe _)
    · intro q
      rw [List.mem_filter]
      constructor
      · rintro ⟨hin, hpred⟩
        rw [Bool.and_eq_true] at hpred
        have hunder : isUnder d q = true := by
          unfold FS.rglob at hin
          have hbase := (List.perm_insertionSort strLe
            ((fs.files.map Prod.fst ++ fs.dirs).filter
              (fun x => isUnder d x))).mem_iff.mp hin
          exact (List.mem_filter.mp hbase).2
        exact ⟨hunder, hpred.1, extPass_iff.mp hpred.2⟩
      · rintro ⟨hunder, hfq, hext⟩
        have hbase : q ∈ (fs.files.map Prod.fst ++ fs.dirs).filter
            (fun x => isUnder d x) := by
          rw [List.mem_filter]
          refine ⟨?_, hunder⟩
          have hmemf : q ∈ fs.files.map Prod.fst := by
            simpa [FS.isFile] using hfq
          exact List.mem_append.mpr (Or.inl hmemf)
        have hin : q ∈ fs.rglob d := by
          unfold FS.rglob
          exact (List.perm_insertionSort strLe _).mem_iff.mpr hbase
        refine ⟨hin, ?_⟩
        rw [Bool.and_eq_true]
        exact ⟨hfq, extPass_iff.mpr hext⟩

/-- Witness for C8: a mixed directory `d` with `--extensions .md`. -/
theorem claim_C8_witness :
    ((iterPaths ⟨[("d/b.txt", []), ("d/a.md", []), ("x", [])], ["d"]⟩
        ["d/a.md"] [".md"]).1 =
      if extPass [".md"] "d/a.md" then [Entry.file "d/a.md"] else []) ∧
    ∃ ps : List String,
      (iterPaths ⟨[("d/b.txt", []), ("d/a.md", []), ("x", [])], ["d"]⟩
          ["d"] [".md"]).1 = ps.map Entry.file ∧
      List.Sorted strLe ps ∧
      (∀ q, q ∈ ps ↔
        (isUnder "d" q = true ∧
          FS.isFile ⟨[("d/b.txt", []), ("d/a.md", []), ("x", [])], ["d"]⟩ q =
            true ∧
          ([".md"] = ([] : List String) ∨
            pyLower (suffixOf q) ∈ [".md"].map pyLower))) :=
  ⟨((claim_C8 ⟨[("d/b.txt", []), ("d/a.md", []), ("x", [])], ["d"]⟩ [".md"]).1
      "d/a.md" (by decide) (by decide)).1,
   (claim_C8 ⟨[("d/b.txt", []), ("d/a.md", []), ("x", [])], ["d"]⟩ [".md"]).2.1
      "d" (by decide) (by decide) (by decide)⟩

/-- Counterexample to C9: the accepted-extension set `[""]` is non-empty,
`"Makefile"` has an empty suffix, and yet `iter_paths` yields it, because
the empty suffix lower-cases into the set. -/
theorem claim_C9_counterexample :
    ([""] : List String) ≠ [] ∧ suffixOf "Makefile" = "" ∧
      (iterPaths ⟨[("Makefile", [])], []⟩ ["Makefile"] [""]).1 =
        [Entry.file "Makefile"] := by
  refine ⟨by decide, by decide, by decide⟩

/-- Claim C9 as amended: for every non-empty accepted-extension set whose
members are all non-empty (which is what `run` derives from `--extensions`),
a file with an empty suffix is never yielded, whether named directly or
found in a directory. -/
theorem claim_C9_amended (fs : FS) (exts : List String) (inputs : List String)
    (q : String) (hne : exts ≠ []) (hnb : ∀ e ∈ exts, e ≠ "")
    (hq : suffixOf q = "") :
    Entry.file q ∉ (iterPaths fs inputs exts).1 := by
  intro hmem
  obtain ⟨-, hpass⟩ := mem_iterPaths_file inputs q hmem
  rcases extPass_iff.mp hpass with h | h
  · exact hne h
  · rw [hq] at h
    rw [show pyLower "" = "" from rfl] at h
    obtain ⟨e, he, hee⟩ := List.mem_map.mp h
    have hd : e.data.map Char.toLower = [] := congrArg String.data hee
    have hnil : e.data = [] := List.map_eq_nil_iff.mp hd
    have : e = "" := by
      obtain ⟨d⟩ := e
      simp only at hnil
      rw [hnil]
    exact hnb e he this

/-- Witness for the amended C9: with accepted set `[".md"]`, the
extensionless file `"Makefile"` is not yielded. -/
theorem claim_C9_amended_witness :
    Entry.file "Makefile" ∉
      (iterPaths ⟨[("Makefile", [])], []⟩ ["Makefile"] [".md"]).1 :=
  claim_C9_amended ⟨[("Makefile", [])], []⟩ [".md"] ["Makefile"] "Makefile"
    (by decide) (by decide) (by decide)

/-!
Concrete evaluations checking the embedding against the script's observable
behaviour on small inputs.
-/

example : stripOneNewline "aa\n\n" = "aa\n" := by decide
example : stripOneNewline "aa" = "aa" := by decide
example : parseCommaList " .md ,,  , .txt" = [".md", ".txt"] := by decide
example : parseCommaList "" = ([] : List String) := by decide
example :
    run ⟨[("d/a.md", ["ok\n", "wayTooLong\n"])], ["d"]⟩ [] ⟨["d"], 4, ".md", "//,#", false⟩ =
      Except.ok ⟨1, ["Checked 1 file with 1 violation(s)."],
        ["d/a.md:2 exceeds limit (10 > 4 bytes): wayTooLong"]⟩ := rfl
example :
    run ⟨[], []⟩ ["aaa\n"] ⟨["-"], 2, "", "", false⟩ =
      Except.ok ⟨1, ["Checked 1 file with 1 violation(s)."],
        ["stdin exceeds limit (3 > 2 bytes): aaa"]⟩ := rfl
example :
    run ⟨[], []⟩ [] ⟨["nope"], 2, "", "", false⟩ = Except.error "nope" := rfl
example : suffixOf "d/a.TXT" = ".TXT" := by decide
example : suffixOf "d/Makefile" = "" := by decide
example : suffixOf ".gitignore" = "" := by decide
example : suffixOf "a.tar.gz" = ".gz" := by decide
example : extPass [".md"] "d/x.MD" = true := by decide
example : extPass [] "d/x.weird" = true := by decide
example :
    iterPaths ⟨[("d/b.txt", []), ("d/a.md", []), ("plain", [])], ["d"]⟩ ["d"] [".md", ".txt"] =
      ([Entry.file "d/a.md", Entry.file "d/b.txt"], none) := by decide
example :
    iterPaths ⟨[("x.md", [])], []⟩ ["x.md", "gone"] [] =
      ([Entry.file "x.md"], some "gone") := by decide

end CheckUtf8Budget
